import Mathlib

/-!
# Verification of the medmon dashboard ingestion core

A shallow embedding, in Lean 4, of the CSV ingestion and
normalization/aggregation pipeline of the `prototipe-medmon` dashboard:

* `parseCsv` — the character-level CSV parser of `src/lib/publishedSheet.ts`;
* `sheetRowsFromCsv` — the pure part of `fetchPublishedSheetRows`
  (header extraction, blank-row filtering, record building);
* `normalizeDate`, `mapSentiment` — the per-page row normalizers of
  `src/pages/SpokespersonPage.tsx`, `src/pages/ArticlesPage.tsx` and the
  overview page (three identical copies in the sources);
* the count aggregations (`topicDistribution`, `spokespersonDistribution`)
  and the share computations (`positifShare` …).

JavaScript strings are modelled as Lean `String` / `List Char`; JavaScript
number arithmetic on counts and shares is modelled over `ℚ`/`ℤ`/`ℕ` (all
quantities involved are small integers).  JavaScript plain objects used as
count maps are modelled as insertion-ordered association lists together
with the ECMA-262 ordinary own-property-key enumeration order (array-index
keys first, in ascending numeric order, then the remaining string keys in
insertion order), which is what `Object.entries` observes.
-/

/-! ## JavaScript string helpers -/

/-- Whitespace as recognised by `String.prototype.trim` (restricted to the
ASCII whitespace characters that occur in CSV data). -/
def jsWs (c : Char) : Bool :=
  c = ' ' || c = '\t' || c = '\n' || c = '\r' || c = '\x0b' || c = '\x0c'

/-- JavaScript `String.prototype.trim` on a character list: drop leading and trailing
whitespace. -/
def trimL (l : List Char) : List Char :=
  ((l.dropWhile jsWs).reverse.dropWhile jsWs).reverse

/-- JavaScript `String.prototype.trim`. -/
def jsTrim (s : String) : String := ⟨trimL s.data⟩

/-- JavaScript `String.prototype.toLowerCase`, character-wise (ASCII case mapping, the
only one exercised by the sentiment vocabulary). -/
def lowerL (l : List Char) : List Char := l.map Char.toLower

/-- JavaScript `haystack.includes(needle)`: `containsSub needle haystack` is true iff
`needle` occurs as a contiguous substring of `haystack`. -/
def containsSub (needle : List Char) : List Char → Bool
  | [] => needle.isEmpty
  | c :: rest => needle.isPrefixOf (c :: rest) || containsSub needle rest

/-! ## The CSV parser (`parseCsv` in `src/lib/publishedSheet.ts`)

The imperative single-pass loop carries four pieces of state:
`inQuotes`, `currentValue`, `currentRow`, `rows`.  We reify them in
`CsvState` and translate the loop body case by case. -/

structure CsvState where
  inQuotes : Bool
  curVal : List Char
  curRow : List (List Char)
  rows : List (List (List Char))
deriving DecidableEq

/-- One pass of the `for` loop of `parseCsv` over the remaining input.
Each branch mirrors the source:
* `"`: inside quotes followed by another `"` (the `nextChar` lookahead)
  emits a literal quote and skips both; otherwise toggles `inQuotes`;
* `,` outside quotes ends the cell; inside quotes it is appended;
* `\n`/`\r` outside quotes end the cell and the row, a `\r\n` pair being
  consumed as a single terminator; inside quotes they are appended;
* any other character is appended to the current cell. -/
def csvRun : List Char → Bool → List Char → List (List Char) →
    List (List (List Char)) → CsvState
  | [], inQuotes, curVal, curRow, rows => ⟨inQuotes, curVal, curRow, rows⟩
  | c :: rest, inQuotes, curVal, curRow, rows =>
    if c == '"' then
      match inQuotes, rest with
      | true, c2 :: rest2 =>
        if c2 == '"' then csvRun rest2 true (curVal ++ ['"']) curRow rows
        else csvRun (c2 :: rest2) false curVal curRow rows
      | true, [] => csvRun [] false curVal curRow rows
      | false, [] => csvRun [] true curVal curRow rows
      | false, c2 :: rest2 => csvRun (c2 :: rest2) true curVal curRow rows
    else if c == ',' && !inQuotes then
      csvRun rest inQuotes [] (curRow ++ [curVal]) rows
    else if (c == '\n' || c == '\r') && !inQuotes then
      match rest with
      | c2 :: rest2 =>
        if c == '\r' && c2 == '\n' then
          csvRun rest2 inQuotes [] [] (rows ++ [curRow ++ [curVal]])
        else
          csvRun (c2 :: rest2) inQuotes [] [] (rows ++ [curRow ++ [curVal]])
      | [] => csvRun [] inQuotes [] [] (rows ++ [curRow ++ [curVal]])
    else csvRun rest inQuotes (curVal ++ [c]) curRow rows

/-- The two `push` calls after the loop: the last cell and the last row are
flushed unconditionally. -/
def csvFinish (st : CsvState) : List (List (List Char)) :=
  st.rows ++ [st.curRow ++ [st.curVal]]

/-- The parser on a character list, starting from the loop's initial
state (`inQuotes = false`, empty cell, row, and row list). -/
def parseCsvL (l : List Char) : List (List (List Char)) :=
  csvFinish (csvRun l false [] [] [])

/-- The `parseCsv` function of `src/lib/publishedSheet.ts`, at the `String` level. -/
def parseCsv (s : String) : List (List String) :=
  (parseCsvL s.data).map (fun row => row.map String.mk)

/-! ## `fetchPublishedSheetRows` (pure part)

The network fetch is out of scope; `sheetRowsFromCsv` is the body of
`fetchPublishedSheetRows` from the response text on: parse, header
extraction (BOM strip + trim), blank-row filtering, record building.
A JavaScript record object is modelled as an insertion-ordered association
list; assignment to an existing key overwrites in place
(`jsSetKey`). -/

/-- Strip one leading byte-order mark; the source's `header.replace` with
the regular expression matching one `U+FEFF` at position zero. -/
def stripBOM (s : String) : String :=
  match s.data with
  | '﻿' :: rest => ⟨rest⟩
  | _ => s

/-- Assignment `record[k] = v` on a plain object: overwrite in place if `k` is
present, otherwise append. -/
def jsSetKey (k v : String) : List (String × String) → List (String × String)
  | [] => [(k, v)]
  | (k', v') :: rest =>
    if k' = k then (k, v) :: rest else (k', v') :: jsSetKey k v rest

/-- The `headers.forEach((header, index) => …)` loop, from column index
`i` on: a column with an empty (trimmed) header contributes no key
(`if (!header) return`); otherwise the cell at the same index is trimmed,
a missing cell (`row[index]` undefined) becoming the empty string
(`row[index]?.trim() ?? ""`). -/
def buildRecordFrom (row : List String) (rec : List (String × String)) :
    Nat → List String → List (String × String)
  | _, [] => rec
  | i, header :: hs =>
    if header = "" then buildRecordFrom row rec (i + 1) hs
    else buildRecordFrom row (jsSetKey header (jsTrim (row.getD i (""))) rec) (i + 1) hs

/-- The record built for one data row. -/
def buildRecord (headers : List String) (row : List String) : List (String × String) :=
  buildRecordFrom row [] 0 headers

/-- The pure part of `fetchPublishedSheetRows`: everything after
`const text = await response.text()`. -/
def sheetRowsFromCsv (text : String) : List (List (String × String)) :=
  let table := parseCsv text
  match table with
  | [] => []
  | headerRow :: dataRows =>
    let headers := headerRow.map (fun header => jsTrim (stripBOM header))
    (dataRows.filter (fun row => row.any (fun cell => jsTrim cell != "")))
      |>.map (fun row => buildRecord headers row)

/-! ## `normalizeDate`

`src/pages/SpokespersonPage.tsx` lines 44–60 (identical copies in
`ArticlesPage.tsx` and the overview page).  The heart is the JavaScript
regular-expression search
`trimmed.match(/(\d{1,2})[\/\-](\d{1,2})[\/\-](\d{2,4})/)`: an unanchored,
leftmost search with greedy quantifiers and backtracking.  We implement
exactly that search for this fixed pattern. -/

/-- The accepted date separators, `[\/\-]`. -/
def isDateSep (c : Char) : Bool := c = '/' || c = '-'

/-- Greedy match of `\d{2,4}` at the end of the pattern: take the leading
digit run, capped at four; succeed iff at least two digits are taken. -/
def matchYear (l : List Char) : Option (List Char) :=
  let ds := (l.takeWhile Char.isDigit).take 4
  if ds.length ≥ 2 then some ds else none

/-- Attempt the whole pattern at the current position.  Group 1 and
group 2 (`\d{1,2}`) are greedy: two digits are tried before one; group 3
is `matchYear`.  Returns `(day, month, year)` capture lists. -/
def tryMatchAt (l : List Char) : Option (List Char × List Char × List Char) :=
  let d1 := fun (n1 : Nat) =>
    let g1 := l.take n1
    if g1.length = n1 && g1.all Char.isDigit then
      match l.drop n1 with
      | s1 :: rest1 =>
        if isDateSep s1 then
          let d2 := fun (n2 : Nat) =>
            let g2 := rest1.take n2
            if g2.length = n2 && g2.all Char.isDigit then
              match rest1.drop n2 with
              | s2 :: rest2 =>
                if isDateSep s2 then
                  match matchYear rest2 with
                  | some g3 => some (g1, g2, g3)
                  | none => none
                else none
              | [] => none
            else none
          (d2 2).orElse (fun _ => d2 1)
        else none
      | [] => none
    else none
  (d1 2).orElse (fun _ => d1 1)

/-- The unanchored regex search: try each start position left to right. -/
def regexSearch : List Char → Option (List Char × List Char × List Char)
  | [] => none
  | c :: rest => (tryMatchAt (c :: rest)).orElse (fun _ => regexSearch rest)

/-- JavaScript `String.prototype.padStart(2, "0")`. -/
def padStart2 (l : List Char) : List Char :=
  List.replicate (2 - l.length) '0' ++ l

/-- The year rule: a two-digit year is prefixed with `20`, a three- or
four-digit year kept as is. -/
def yearFix (y : List Char) : List Char :=
  if y.length = 2 then '2' :: '0' :: y else y

/-- Modelled from the spec: the general date parsing fallback
(`new Date(trimmed)` followed by `toISOString().slice(0, 10)`) is host
behaviour of the JavaScript engine, not part of the repository sources;
the spec says normalizeDate "attempts general date parsing; on total
failure, returns the original trimmed string unchanged".  We model the
host parser as accepting exactly the strict ISO calendar-date form
`YYYY-MM-DD` (returned unchanged, as `toISOString().slice(0,10)` yields
for such a date) and rejecting everything else (`NaN` time value). -/
def jsDateParse (s : String) : Option String :=
  match s.data with
  | [y1, y2, y3, y4, '-', m1, m2, '-', d1, d2] =>
    if ([y1, y2, y3, y4, m1, m2, d1, d2].all Char.isDigit)
        && (1 ≤ (10 * (m1.toNat - 48) + (m2.toNat - 48))
            && (10 * (m1.toNat - 48) + (m2.toNat - 48)) ≤ 12)
        && (1 ≤ (10 * (d1.toNat - 48) + (d2.toNat - 48))
            && (10 * (d1.toNat - 48) + (d2.toNat - 48)) ≤ 31) then
      some s
    else none
  | _ => none

/-- The `normalizeDate` function of the page normalizers. -/
def normalizeDate (value : String) : String :=
  let trimmed := trimL value.data
  if trimmed = [] then ("")
  else
    match regexSearch trimmed with
    | some (d, m, y) =>
      ⟨yearFix y ++ '-' :: (padStart2 m ++ '-' :: padStart2 d)⟩
    | none =>
      match jsDateParse ⟨trimmed⟩ with
      | some iso => iso
      | none => ⟨trimmed⟩

/-! ## `mapSentiment`

Three identical copies in the sources (`SpokespersonPage.tsx` 37–42,
`dashboard.ts`/overview 135–140, and an `ArticlesPage.tsx` variant with
English label names); the logic is the same: lowercase, then ordered
substring checks. -/

inductive SentimentLabel where
  | Positif
  | Netral
  | Negatif
deriving DecidableEq

/-- Test `value.toLowerCase().includes(token)` for a vocabulary token. -/
def toneHas (value : String) (token : String) : Bool :=
  containsSub token.data (lowerL value.data)

/-- The `mapSentiment` function of the page normalizers. -/
def mapSentiment (value : String) : SentimentLabel :=
  if toneHas value ("positif") || toneHas value ("positive") then .Positif
  else if toneHas value ("negatif") || toneHas value ("negative") then .Negatif
  else .Netral

/-! ## Sentiment counts and shares (overview page / `dashboard.ts`)

`sentimentCounts` is the `reduce` over the filtered rows starting from
`{ Positif: 0, Netral: 0, Negatif: 0 }`; the shares are
`total ? Math.round((count / total) * 100) : 0`.  JavaScript `Math.round`
is `⌊x + 1/2⌋` (half-up, toward +∞); the float arithmetic on these small
counts is modelled exactly over `ℚ`. -/

structure SentimentCounts where
  Positif : Nat
  Netral : Nat
  Negatif : Nat
deriving DecidableEq

/-- The `filteredRows.reduce` accumulating one count per label. -/
def sentimentCounts (rows : List SentimentLabel) : SentimentCounts :=
  rows.foldl
    (fun acc s =>
      match s with
      | .Positif => { acc with Positif := acc.Positif + 1 }
      | .Netral => { acc with Netral := acc.Netral + 1 }
      | .Negatif => { acc with Negatif := acc.Negatif + 1 })
    ⟨0, 0, 0⟩

/-- JavaScript `Math.round`. -/
def jsRound (x : ℚ) : ℤ := ⌊x + 1 / 2⌋

/-- Share `totalMentions ? Math.round((sentimentCounts.Positif / totalMentions) * 100) : 0`. -/
def positifShare (rows : List SentimentLabel) : ℤ :=
  let totalMentions := rows.length
  if totalMentions = 0 then 0
  else jsRound (((sentimentCounts rows).Positif : ℚ) / totalMentions * 100)

/-- The `Netral` share, same guard. -/
def netralShare (rows : List SentimentLabel) : ℤ :=
  let totalMentions := rows.length
  if totalMentions = 0 then 0
  else jsRound (((sentimentCounts rows).Netral : ℚ) / totalMentions * 100)

/-- The `Negatif` share, same guard. -/
def negatifShare (rows : List SentimentLabel) : ℤ :=
  let totalMentions := rows.length
  if totalMentions = 0 then 0
  else jsRound (((sentimentCounts rows).Negatif : ℚ) / totalMentions * 100)

/-! ## Count aggregations (`topicDistribution`, `spokespersonDistribution`)

The pages accumulate counts in a plain object
(`acc[key] = (acc[key] || 0) + 1`), then take `Object.entries`, map to
`{name, value}` pairs and sort with the comparator
`(a, b) => b.value - a.value`.

* The object keeps string keys in insertion order, except that keys that
  are array indices (canonical base-10 integers below 2³² − 1) are
  enumerated first, in ascending numeric order (ECMA-262 ordinary own
  property keys, observed by `Object.entries`): `bumpCount` models the
  insertion-ordered store, `entriesOrder` the enumeration order.
* `Array.prototype.sort` is stable (ES2019) and the comparator orders by
  descending `value`: `sortByValueDesc` is that stable sort. -/

/-- Count bump `acc[k] = (acc[k] || 0) + 1` on the insertion-ordered store. -/
def bumpCount (k : String) : List (String × Nat) → List (String × Nat)
  | [] => [(k, 1)]
  | (k', n) :: rest =>
    if k' = k then (k', n + 1) :: rest else (k', n) :: bumpCount k rest

/-- Digits-to-number, for array-index keys. -/
def digitsToNat (l : List Char) : Nat :=
  l.foldl (fun n c => n * 10 + (c.toNat - 48)) 0

/-- Is the string a canonical array index (ECMA-262): a base-10 numeral
with no leading zero (except `"0"` itself) whose value is below
2³² − 1? -/
def isArrayIndex (s : String) : Bool :=
  match s.data with
  | [] => false
  | c :: rest =>
    ((c :: rest).all Char.isDigit)
      && (c :: rest = ['0'] || c ≠ '0')
      && digitsToNat (c :: rest) < 4294967295

/-- Insert an (array-index) key in ascending numeric order. -/
def insertIdxAsc (p : String × Nat) : List (String × Nat) → List (String × Nat)
  | [] => [p]
  | q :: rest =>
    if digitsToNat q.1.data < digitsToNat p.1.data then q :: insertIdxAsc p rest
    else p :: q :: rest

/-- Sort (array-index) keys ascending numerically. -/
def sortIdxAsc : List (String × Nat) → List (String × Nat)
  | [] => []
  | p :: rest => insertIdxAsc p (sortIdxAsc rest)

/-- The `Object.entries` enumeration order on the insertion-ordered store:
array-index keys first, ascending numerically, then the remaining keys in
insertion order. -/
def entriesOrder (l : List (String × Nat)) : List (String × Nat) :=
  sortIdxAsc (l.filter (fun p => isArrayIndex p.1))
    ++ l.filter (fun p => !isArrayIndex p.1)

/-- Stable insertion step for the comparator `(a, b) => b.value - a.value`:
a new element goes after every strictly larger one and before the first
element not larger — in particular before equal values already placed
later in the scan. -/
def insertByValueDesc (p : String × Nat) : List (String × Nat) → List (String × Nat)
  | [] => [p]
  | q :: rest =>
    if p.2 < q.2 then q :: insertByValueDesc p rest else p :: q :: rest

/-- The ES2019 stable sort under the comparator `(a, b) => b.value - a.value`. -/
def sortByValueDesc : List (String × Nat) → List (String × Nat)
  | [] => []
  | p :: rest => insertByValueDesc p (sortByValueDesc rest)

/-- The `SheetRow` of `TopicsPage` (`src/unnamed/part_002`). -/
structure TopicRow where
  publishedDate : String
  topic : String
  sentiment : SentimentLabel
deriving DecidableEq

/-- The `SheetRow` of `SpokespersonPage.tsx`. -/
structure SpokesRow where
  publishedDate : String
  spokesperson : String
  sentiment : SentimentLabel
deriving DecidableEq

/-- The `filteredRows.reduce` of `topicDistribution`: every row is counted
under its topic; first-encounter keys are appended at the tail, so the
store lists group keys in first-encounter order. -/
def topicCounts (rows : List TopicRow) : List (String × Nat) :=
  rows.foldl (fun acc row => bumpCount row.topic acc) []

/-- The `topicDistribution` memo (`src/unnamed/part_002` lines 137–145): count every
row under its topic, then order the entries and sort by descending count. -/
def topicDistribution (rows : List TopicRow) : List (String × Nat) :=
  sortByValueDesc (entriesOrder (topicCounts rows))

/-- The `filteredRows.reduce` of `spokespersonDistribution`: a row with an
empty (falsy) spokesperson is skipped (`if (!row.spokesperson) return acc`). -/
def spokespersonCounts (rows : List SpokesRow) : List (String × Nat) :=
  rows.foldl
    (fun acc row =>
      if row.spokesperson = "" then acc else bumpCount row.spokesperson acc)
    []

/-- The `spokespersonDistribution` memo (`SpokespersonPage.tsx` lines 165–174). -/
def spokespersonDistribution (rows : List SpokesRow) : List (String × Nat) :=
  sortByValueDesc (entriesOrder (spokespersonCounts rows))

/-- The `TOPIK` field mapping in `fetchSheet` (`src/unnamed/part_002`
lines 84–90): `rawTopic = (getValue("TOPIK") || "").trim()`, then
`topic: rawTopic || "Lainnya"`. -/
def topicOfRaw (raw : String) : String :=
  let rawTopic := jsTrim raw
  if rawTopic = "" then ("Lainnya") else rawTopic


/-! ## Auxiliary definitions for the theorems

The vocabulary tests of `mapSentiment` named, the bucket total, the
RFC 4180-style row serializer used to state the round-trip property
(a spec-side definition, compared against the parser from the source),
and two concrete row fixtures. -/

/-- The combined positive-vocabulary test of `mapSentiment`. -/
def tonePositive (v : String) : Bool :=
  toneHas v ("positif") || toneHas v ("positive")

/-- The combined negative-vocabulary test of `mapSentiment`. -/
def toneNegative (v : String) : Bool :=
  toneHas v ("negatif") || toneHas v ("negative")

/-- Sum of the bucket counts of an association list. -/
def sumVals (l : List (String × Nat)) : Nat := (l.map Prod.snd).sum

/-- Twelve rows producing counts `{A:2, B:5, C:5}` with `B` first
encountered before `C`. -/
def topicRowsBCA : List TopicRow :=
  [⟨"", "B", .Netral⟩, ⟨"", "C", .Netral⟩, ⟨"", "B", .Netral⟩,
   ⟨"", "C", .Netral⟩, ⟨"", "B", .Netral⟩, ⟨"", "C", .Netral⟩,
   ⟨"", "B", .Netral⟩, ⟨"", "C", .Netral⟩, ⟨"", "B", .Netral⟩,
   ⟨"", "C", .Netral⟩, ⟨"", "A", .Netral⟩, ⟨"", "A", .Netral⟩]

/-- Two rows whose topics are the array-index strings `"2"` and `"1"`,
encountered in that order. -/
def topicRowsNumeric : List TopicRow :=
  [⟨"", "2", .Netral⟩, ⟨"", "1", .Netral⟩]

/-- Double every `"` in a cell body. -/
def doubleChars : List Char → List Char
  | [] => []
  | c :: rest =>
    if c = '"' then '"' :: '"' :: doubleChars rest else c :: doubleChars rest

/-- A properly quoted cell. -/
def encodeCellL (cell : List Char) : List Char :=
  '"' :: (doubleChars cell ++ ['"'])

/-- A properly quoted row: quoted cells joined by commas. -/
def encodeRowL : List (List Char) → List Char
  | [] => []
  | [cell] => encodeCellL cell
  | cell :: next :: cells => encodeCellL cell ++ ',' :: encodeRowL (next :: cells)

/-- A properly quoted row at the `String` level. -/
def encodeRow (cells : List String) : String :=
  ⟨encodeRowL (cells.map String.data)⟩

/-! ## Trim lemmas -/

/-- The function `trimL` writes the trailing trim as `List.rdropWhile`. -/
theorem trimL_eq_rdropWhile (l : List Char) :
    trimL l = (l.dropWhile jsWs).rdropWhile jsWs := rfl

/-- Trimming is idempotent. -/
theorem trimL_idem (l : List Char) : trimL (trimL l) = trimL l := by
  rw [trimL_eq_rdropWhile, trimL_eq_rdropWhile]
  have hm : (l.dropWhile jsWs).dropWhile jsWs = l.dropWhile jsWs :=
    List.dropWhile_idempotent _ _
  have hpre : ((l.dropWhile jsWs).rdropWhile jsWs) <+: (l.dropWhile jsWs) :=
    List.rdropWhile_prefix _ _
  have hfix : ((l.dropWhile jsWs).rdropWhile jsWs).dropWhile jsWs
      = (l.dropWhile jsWs).rdropWhile jsWs := by
    rw [List.dropWhile_eq_self_iff]
    intro hl
    have h0 : ((l.dropWhile jsWs).rdropWhile jsWs).get ⟨0, hl⟩
        = (l.dropWhile jsWs).get ⟨0, lt_of_lt_of_le hl hpre.length_le⟩ := by
      simpa using hpre.getElem hl
    rw [h0]
    exact (List.dropWhile_eq_self_iff.mp hm) _
  rw [hfix, List.rdropWhile_idempotent]

/-- Trimming a string is idempotent. -/
theorem jsTrim_idem (s : String) : jsTrim (jsTrim s) = jsTrim s :=
  congrArg String.mk (trimL_idem s.data)

/-! ## C6 / C10: `mapSentiment` -/


/-- C6: For every tone string, `mapSentiment` returns exactly one of the
three fixed labels: the positive label exactly when the lowercased string
contains `positif` or `positive`; the negative label exactly when it
contains `negatif` or `negative` and does not meet the positive test
(evaluated first); and the neutral label in all remaining cases — in
particular for the empty string, which contains no vocabulary token. -/
theorem mapSentiment_spec (v : String) :
    (mapSentiment v = .Positif ↔ tonePositive v = true) ∧
    (mapSentiment v = .Negatif ↔ (toneNegative v = true ∧ tonePositive v = false)) ∧
    (mapSentiment v = .Netral ↔ (tonePositive v = false ∧ toneNegative v = false)) ∧
    mapSentiment ("") = .Netral := by
  have hmap : mapSentiment v =
      (if tonePositive v then .Positif
       else if toneNegative v then .Negatif else .Netral) := rfl
  refine ⟨?_, ?_, ?_, by decide⟩ <;> rw [hmap] <;>
    cases htp : tonePositive v <;> cases htn : toneNegative v <;> simp

/-- C10: a tone string meeting both the positive and the negative
vocabulary test is classified positive, because the positive check is
evaluated first. -/
theorem mapSentiment_positive_precedence (v : String)
    (hpos : tonePositive v = true) (_ : toneNegative v = true) :
    mapSentiment v = .Positif := by
  simp only [tonePositive] at hpos
  simp [mapSentiment, hpos]

/-- Witness for C10 at `"positif dan negatif"` (contains both tokens). -/
theorem mapSentiment_positive_precedence_witness :
    tonePositive ("positif dan negatif") = true ∧
    toneNegative ("positif dan negatif") = true ∧
    mapSentiment ("positif dan negatif") = .Positif :=
  ⟨by decide, by decide,
    mapSentiment_positive_precedence ("positif dan negatif") (by decide) (by decide)⟩

/-! ## C7: shares -/

/-- The `reduce` accumulator equals the three per-label occurrence
counts, shifted by the initial accumulator. -/
theorem sentimentCounts_count (rows : List SentimentLabel) :
    sentimentCounts rows =
      ⟨rows.count .Positif, rows.count .Netral, rows.count .Negatif⟩ := by
  suffices h : ∀ (rows : List SentimentLabel) (acc : SentimentCounts),
      rows.foldl
        (fun acc s =>
          match s with
          | .Positif => { acc with Positif := acc.Positif + 1 }
          | .Netral => { acc with Netral := acc.Netral + 1 }
          | .Negatif => { acc with Negatif := acc.Negatif + 1 })
        acc =
      ⟨acc.Positif + rows.count .Positif, acc.Netral + rows.count .Netral,
        acc.Negatif + rows.count .Negatif⟩ by
    simpa [sentimentCounts] using h rows ⟨0, 0, 0⟩
  intro rows
  induction rows with
  | nil => intro acc; simp
  | cons s rest ih =>
    intro acc
    cases s <;>
      simp [List.count_cons, ih] <;>
      omega

/-- C7: for every filtered row list, each sentiment share equals
`round(bucket_count / total * 100)` when the total is positive, and every
share is exactly `0` when the total is zero — the guard `total ? … : 0`
means no division by zero is ever performed (over `ℚ` the computation is
total and yields an integer in every case). -/
theorem shares_spec (rows : List SentimentLabel) :
    (rows.length ≠ 0 →
      positifShare rows =
          jsRound ((rows.count SentimentLabel.Positif : ℚ) / rows.length * 100) ∧
        netralShare rows =
          jsRound ((rows.count SentimentLabel.Netral : ℚ) / rows.length * 100) ∧
        negatifShare rows =
          jsRound ((rows.count SentimentLabel.Negatif : ℚ) / rows.length * 100)) ∧
    (rows.length = 0 →
      positifShare rows = 0 ∧ netralShare rows = 0 ∧ negatifShare rows = 0) := by
  constructor
  · intro h
    refine ⟨?_, ?_, ?_⟩ <;>
      simp [positifShare, netralShare, negatifShare, sentimentCounts_count, h]
  · intro h
    refine ⟨?_, ?_, ?_⟩ <;>
      simp [positifShare, netralShare, negatifShare, h]

/-- Witness for C7 at a two-row list (one positive, one neutral) and at
the empty list. -/
theorem shares_spec_witness :
    ([SentimentLabel.Positif, SentimentLabel.Netral].length ≠ 0 ∧
      positifShare [SentimentLabel.Positif, SentimentLabel.Netral] =
        jsRound ((([SentimentLabel.Positif, SentimentLabel.Netral].count
          SentimentLabel.Positif : ℚ)) /
          ([SentimentLabel.Positif, SentimentLabel.Netral].length) * 100)) ∧
    positifShare [] = 0 :=
  ⟨⟨by decide, ((shares_spec [SentimentLabel.Positif, SentimentLabel.Netral]).1
      (by decide)).1⟩,
    ((shares_spec []).2 rfl).1⟩

/-! ## Aggregation lemmas -/


/-- Stable descending insertion permutes. -/
theorem perm_insertByValueDesc (p : String × Nat) (l : List (String × Nat)) :
    List.Perm (insertByValueDesc p l) (p :: l) := by
  induction l with
  | nil => simp [insertByValueDesc]
  | cons q rest ih =>
    by_cases h : p.2 < q.2
    · simp only [insertByValueDesc, if_pos h]
      exact (ih.cons q).trans (List.Perm.swap p q rest)
    · simp [insertByValueDesc, if_neg h]

/-- The stable descending sort permutes. -/
theorem perm_sortByValueDesc (l : List (String × Nat)) :
    List.Perm (sortByValueDesc l) l := by
  induction l with
  | nil => simp [sortByValueDesc]
  | cons p rest ih =>
    exact (perm_insertByValueDesc p (sortByValueDesc rest)).trans (ih.cons p)

/-- Ascending numeric insertion permutes. -/
theorem perm_insertIdxAsc (p : String × Nat) (l : List (String × Nat)) :
    List.Perm (insertIdxAsc p l) (p :: l) := by
  induction l with
  | nil => simp [insertIdxAsc]
  | cons q rest ih =>
    by_cases h : digitsToNat q.1.data < digitsToNat p.1.data
    · simp only [insertIdxAsc, if_pos h]
      exact (ih.cons q).trans (List.Perm.swap p q rest)
    · simp [insertIdxAsc, if_neg h]

/-- The ascending numeric sort permutes. -/
theorem perm_sortIdxAsc (l : List (String × Nat)) :
    List.Perm (sortIdxAsc l) l := by
  induction l with
  | nil => simp [sortIdxAsc]
  | cons p rest ih =>
    exact (perm_insertIdxAsc p (sortIdxAsc rest)).trans (ih.cons p)

/-- The `Object.entries` enumeration permutes the store. -/
theorem perm_entriesOrder (l : List (String × Nat)) :
    List.Perm (entriesOrder l) l := by
  unfold entriesOrder
  exact ((perm_sortIdxAsc _).append_right _).trans
    (List.filter_append_perm (fun p => isArrayIndex p.1) l)

/-- Permutations preserve the bucket-count sum. -/
theorem sumVals_of_perm {l₁ l₂ : List (String × Nat)} (h : List.Perm l₁ l₂) :
    sumVals l₁ = sumVals l₂ :=
  (h.map Prod.snd).sum_eq

/-- Bumping a count adds exactly one to the total. -/
theorem sumVals_bumpCount (k : String) (l : List (String × Nat)) :
    sumVals (bumpCount k l) = sumVals l + 1 := by
  induction l with
  | nil => simp [bumpCount, sumVals]
  | cons q rest ih =>
    by_cases h : q.1 = k
    · simp [bumpCount, h, sumVals]
      omega
    · simp [bumpCount, h, sumVals] at ih ⊢
      omega

/-- Inserting below strictly larger values preserves the descending
pairwise order. -/
theorem pairwise_insertByValueDesc (p : String × Nat) (l : List (String × Nat))
    (h : l.Pairwise (fun a b => b.2 ≤ a.2)) :
    (insertByValueDesc p l).Pairwise (fun a b => b.2 ≤ a.2) := by
  induction l with
  | nil => simp [insertByValueDesc]
  | cons q rest ih =>
    rcases List.pairwise_cons.mp h with ⟨hq, hrest⟩
    by_cases hlt : p.2 < q.2
    · simp only [insertByValueDesc, if_pos hlt]
      refine List.pairwise_cons.mpr ⟨?_, ih hrest⟩
      intro a ha
      rcases List.mem_cons.mp ((perm_insertByValueDesc p rest).mem_iff.mp ha) with
        rfl | ha'
      · exact Nat.le_of_lt hlt
      · exact hq a ha'
    · simp only [insertByValueDesc, if_neg hlt]
      refine List.pairwise_cons.mpr ⟨?_, h⟩
      intro a ha
      rcases List.mem_cons.mp ha with rfl | ha'
      · exact Nat.le_of_not_lt hlt
      · exact le_trans (hq a ha') (Nat.le_of_not_lt hlt)

/-- The comparator sort output is descending in the counts. -/
theorem pairwise_sortByValueDesc (l : List (String × Nat)) :
    (sortByValueDesc l).Pairwise (fun a b => b.2 ≤ a.2) := by
  induction l with
  | nil => simp [sortByValueDesc]
  | cons p rest ih => exact pairwise_insertByValueDesc p _ ih

/-- Stability of the insertion step, seen on one count fiber: inserting an
element of count `v` prepends it to the fiber (every element it is placed
after has a strictly larger count), and inserting any other count leaves
the fiber unchanged. -/
theorem filter_insertByValueDesc (p : String × Nat) (l : List (String × Nat))
    (v : Nat) :
    (insertByValueDesc p l).filter (fun q => q.2 == v) =
      if p.2 = v then p :: l.filter (fun q => q.2 == v)
      else l.filter (fun q => q.2 == v) := by
  induction l with
  | nil =>
    by_cases hv : p.2 = v <;> simp [insertByValueDesc, hv]
  | cons q rest ih =>
    by_cases hlt : p.2 < q.2
    · have hq : ¬(q.2 = v) ∨ ¬(p.2 = v) := by omega
      simp only [insertByValueDesc, if_pos hlt]
      by_cases hv : p.2 = v
      · have hqv : (q.2 == v) = false := by
          rcases hq with h' | h'
          · exact beq_eq_false_iff_ne.mpr h'
          · exact absurd hv h'
        simp [List.filter_cons, hqv, ih, hv]
      · simp [List.filter_cons, ih, hv]
    · simp only [insertByValueDesc, if_neg hlt]
      by_cases hv : p.2 = v
      · simp [List.filter_cons, hv]
      · have : (p.2 == v) = false := beq_eq_false_iff_ne.mpr hv
        simp [List.filter_cons, this, hv]

/-- Stability of the comparator sort: each count fiber of the output is
the corresponding fiber of the input, in the same order. -/
theorem filter_sortByValueDesc (l : List (String × Nat)) (v : Nat) :
    (sortByValueDesc l).filter (fun q => q.2 == v) =
      l.filter (fun q => q.2 == v) := by
  induction l with
  | nil => simp [sortByValueDesc]
  | cons p rest ih =>
    by_cases hv : p.2 = v
    · simp [sortByValueDesc, filter_insertByValueDesc, hv, ih, List.filter_cons]
    · have hb : (p.2 == v) = false := beq_eq_false_iff_ne.mpr hv
      simp [sortByValueDesc, filter_insertByValueDesc, hv, ih, List.filter_cons, hb]

/-- When no group key is an array-index string, the `Object.entries`
enumeration is exactly the insertion order of the store. -/
theorem entriesOrder_of_no_index (l : List (String × Nat))
    (h : ∀ p ∈ l, isArrayIndex p.1 = false) : entriesOrder l = l := by
  unfold entriesOrder
  have h1 : l.filter (fun p => isArrayIndex p.1) = [] := by
    rw [List.filter_eq_nil_iff]
    intro p hp
    simp [h p hp]
  have h2 : l.filter (fun p => !isArrayIndex p.1) = l := by
    rw [List.filter_eq_self]
    intro p hp
    simp [h p hp]
  rw [h1, h2]
  simp [sortIdxAsc]

/-! ## C2: aggregation ordering -/


/-- C2 counterexample: with group keys `"2"` then `"1"` (equal counts),
the store lists `"2"` first (first encounter), but `Object.entries`
enumerates array-index keys in ascending numeric order, so the
distribution is `[("1",1), ("2",1)]` — not the first-encounter order
`[("2",1), ("1",1)]` the claim predicts for ties. -/
theorem distribution_tie_counterexample :
    topicCounts topicRowsNumeric = [("2", 1), ("1", 1)] ∧
    topicDistribution topicRowsNumeric = [("1", 1), ("2", 1)] ∧
    topicDistribution topicRowsNumeric ≠ [("2", 1), ("1", 1)] := by decide

/-- C2 (amended): every count aggregation is sorted in descending count
order; and provided no group key is an array-index string, each
equal-count fiber of the output lists its keys in first-encounter order
(the order of the accumulating store) — array-index keys instead get
enumerated first in ascending numeric order before the sort.  The
`{A:2, B:5, C:5}` example with `B` before `C` yields
`[B(5), C(5), A(2)]`. -/
theorem distribution_order_spec :
    (∀ rows : List TopicRow,
      (topicDistribution rows).Pairwise (fun a b => b.2 ≤ a.2) ∧
      ((∀ p ∈ topicCounts rows, isArrayIndex p.1 = false) →
        ∀ v, (topicDistribution rows).filter (fun q => q.2 == v) =
          (topicCounts rows).filter (fun q => q.2 == v))) ∧
    (∀ rows : List SpokesRow,
      (spokespersonDistribution rows).Pairwise (fun a b => b.2 ≤ a.2) ∧
      ((∀ p ∈ spokespersonCounts rows, isArrayIndex p.1 = false) →
        ∀ v, (spokespersonDistribution rows).filter (fun q => q.2 == v) =
          (spokespersonCounts rows).filter (fun q => q.2 == v))) ∧
    topicDistribution topicRowsBCA = [("B", 5), ("C", 5), ("A", 2)] := by
  refine ⟨?_, ?_, by decide⟩
  · intro rows
    refine ⟨pairwise_sortByValueDesc _, ?_⟩
    intro h v
    rw [topicDistribution, filter_sortByValueDesc, entriesOrder_of_no_index _ h]
  · intro rows
    refine ⟨pairwise_sortByValueDesc _, ?_⟩
    intro h v
    rw [spokespersonDistribution, filter_sortByValueDesc,
      entriesOrder_of_no_index _ h]

/-- Witness for C2 at the `{A:2, B:5, C:5}` rows: no key there is an
array index, and the count-5 fiber of the output equals that of the
store. -/
theorem distribution_order_spec_witness :
    (topicDistribution topicRowsBCA).filter (fun q => q.2 == 5) =
      (topicCounts topicRowsBCA).filter (fun q => q.2 == 5) :=
  (distribution_order_spec.1 topicRowsBCA).2 (by decide) 5

/-! ## C8: empty group keys -/

/-- The topic store totals one per row. -/
theorem topicCounts_sum (rows : List TopicRow) :
    sumVals (topicCounts rows) = rows.length := by
  suffices h : ∀ (rows : List TopicRow) (acc : List (String × Nat)),
      sumVals (rows.foldl (fun acc row => bumpCount row.topic acc) acc) =
        sumVals acc + rows.length by
    simpa [topicCounts, sumVals] using h rows []
  intro rows
  induction rows with
  | nil => intro acc; simp
  | cons r rest ih =>
    intro acc
    simp only [List.foldl_cons, ih, sumVals_bumpCount, List.length_cons]
    omega

/-- Rows with empty spokesperson contribute nothing to the store: the
fold over all rows equals the fold over the rows with a non-empty
spokesperson. -/
theorem spokespersonCounts_filter (rows : List SpokesRow) :
    spokespersonCounts rows =
      spokespersonCounts (rows.filter (fun r => r.spokesperson != "")) := by
  suffices h : ∀ (rows : List SpokesRow) (acc : List (String × Nat)),
      rows.foldl
        (fun acc row =>
          if row.spokesperson = "" then acc else bumpCount row.spokesperson acc)
        acc =
      (rows.filter (fun r => r.spokesperson != "")).foldl
        (fun acc row =>
          if row.spokesperson = "" then acc else bumpCount row.spokesperson acc)
        acc by
    exact h rows []
  intro rows
  induction rows with
  | nil => intro acc; simp
  | cons r rest ih =>
    intro acc
    by_cases hr : r.spokesperson = ""
    · simp [List.filter_cons, hr, ih]
    · simp [List.filter_cons, hr, ih]

/-- The spokesperson store totals one per row with non-empty spokesperson. -/
theorem spokespersonCounts_sum (rows : List SpokesRow) :
    sumVals (spokespersonCounts rows) =
      (rows.filter (fun r => r.spokesperson != "")).length := by
  suffices h : ∀ (rows : List SpokesRow) (acc : List (String × Nat)),
      sumVals (rows.foldl
        (fun acc row =>
          if row.spokesperson = "" then acc else bumpCount row.spokesperson acc)
        acc) =
      sumVals acc + (rows.filter (fun r => r.spokesperson != "")).length by
    simpa [spokespersonCounts, sumVals] using h rows []
  intro rows
  induction rows with
  | nil => intro acc; simp
  | cons r rest ih =>
    intro acc
    by_cases hr : r.spokesperson = ""
    · simp [List.filter_cons, hr, ih]
    · simp only [List.foldl_cons, if_neg hr, ih, sumVals_bumpCount,
        List.filter_cons]
      simp [hr]
      omega

/-- The sort and enumeration steps do not change the bucket total. -/
theorem sumVals_distribution (l : List (String × Nat)) :
    sumVals (sortByValueDesc (entriesOrder l)) = sumVals l :=
  sumVals_of_perm ((perm_sortByValueDesc _).trans (perm_entriesOrder _))

/-- C8: a record with an empty spokesperson is excluded entirely from the
spokesperson aggregation — removing those records does not change the
distribution at all, and the bucket counts sum to the number of records
with a non-empty spokesperson — while in the topic pipeline an empty
(trimmed) raw topic is bucketed under the sentinel `"Lainnya"` and every
record is counted, so the topic bucket counts sum to the total number of
records. -/
theorem aggregation_empty_key_spec :
    (∀ rows : List SpokesRow,
      sumVals (spokespersonDistribution rows) =
        (rows.filter (fun r => r.spokesperson != "")).length ∧
      spokespersonDistribution rows =
        spokespersonDistribution (rows.filter (fun r => r.spokesperson != ""))) ∧
    (∀ rows : List TopicRow, sumVals (topicDistribution rows) = rows.length) ∧
    (∀ raw : String, jsTrim raw = "" → topicOfRaw raw = "Lainnya") := by
  refine ⟨?_, ?_, ?_⟩
  · intro rows
    constructor
    · rw [spokespersonDistribution, sumVals_distribution, spokespersonCounts_sum]
    · rw [spokespersonDistribution, spokespersonDistribution,
        ← spokespersonCounts_filter]
  · intro rows
    rw [topicDistribution, sumVals_distribution, topicCounts_sum]
  · intro raw h
    simp [topicOfRaw, h]

/-- Witness for C8 at a whitespace-only raw topic. -/
theorem aggregation_empty_key_spec_witness :
    jsTrim ("  ") = "" ∧ topicOfRaw ("  ") = "Lainnya" :=
  ⟨by decide, aggregation_empty_key_spec.2.2 ("  ") (by decide)⟩

/-! ## C3: CSV round-trip

To state the round-trip property we need a serializer for a properly
quoted row (RFC 4180-style, the convention the spec names): every cell is
wrapped in double quotes and each embedded quote is doubled.  This spec
side definition is compared against the parser from the source. -/


/-- Opening quote: outside quotes, a `"` only toggles the state. -/
theorem csvRun_quote_open (rest : List Char) (curVal : List Char)
    (curRow : List (List Char)) (rows : List (List (List Char))) :
    csvRun ('"' :: rest) false curVal curRow rows =
      csvRun rest true curVal curRow rows := by
  cases rest <;> simp [csvRun]

/-- Closing quote: inside quotes, a `"` not followed by another `"`
toggles the state back. -/
theorem csvRun_quote_close (m : List Char) (curVal : List Char)
    (curRow : List (List Char)) (rows : List (List (List Char)))
    (h : ∀ m', m ≠ '"' :: m') :
    csvRun ('"' :: m) true curVal curRow rows =
      csvRun m false curVal curRow rows := by
  cases m with
  | nil => simp [csvRun]
  | cons c2 m' =>
    have hc2 : ¬(c2 = '"') := by
      intro hc
      exact h m' (by rw [hc])
    simp [csvRun, hc2]

/-- Inside quotes, a doubled cell body is consumed verbatim: each doubled
quote emits one literal quote and every other character (commas, CR, LF
included) is appended. -/
theorem csvRun_doubleChars (cell : List Char) :
    ∀ (m curVal : List Char) (curRow : List (List Char))
      (rows : List (List (List Char))),
      csvRun (doubleChars cell ++ m) true curVal curRow rows =
        csvRun m true (curVal ++ cell) curRow rows := by
  induction cell with
  | nil => intro m curVal curRow rows; simp [doubleChars]
  | cons c rest ih =>
    intro m curVal curRow rows
    by_cases hc : c = '"'
    · subst hc
      have hd : doubleChars ('"' :: rest) = '"' :: '"' :: doubleChars rest := by
        simp [doubleChars]
      rw [hd, List.cons_append, List.cons_append]
      have step : csvRun ('"' :: '"' :: (doubleChars rest ++ m)) true
          curVal curRow rows =
          csvRun (doubleChars rest ++ m) true (curVal ++ ['"']) curRow rows := by
        simp [csvRun]
      rw [step, ih]
      simp
    · have hc' : (c == '"') = false := beq_eq_false_iff_ne.mpr hc
      have hd : doubleChars (c :: rest) = c :: doubleChars rest := by
        simp [doubleChars, hc]
      rw [hd, List.cons_append]
      have step : csvRun (c :: (doubleChars rest ++ m)) true curVal curRow rows =
          csvRun (doubleChars rest ++ m) true (curVal ++ [c]) curRow rows := by
        rw [csvRun.eq_def]
        simp [hc']
      rw [step, ih, List.append_assoc]
      rfl

/-- A quoted cell followed by a comma (or end of row) is consumed into the
current cell value verbatim. -/
theorem csvRun_encodeCell (cell m : List Char) (curVal : List Char)
    (curRow : List (List Char)) (rows : List (List (List Char)))
    (hm : m = [] ∨ ∃ m', m = ',' :: m') :
    csvRun (encodeCellL cell ++ m) false curVal curRow rows =
      csvRun m false (curVal ++ cell) curRow rows := by
  have hshape : encodeCellL cell ++ m =
      '"' :: (doubleChars cell ++ ('"' :: m)) := by
    simp [encodeCellL]
  rw [hshape, csvRun_quote_open, csvRun_doubleChars, csvRun_quote_close]
  intro m' hmm
  rcases hm with rfl | ⟨m'', rfl⟩ <;> simp at hmm

/-- Consuming a whole properly quoted row: each leading cell is pushed to
the current row, the last cell remains pending in `currentValue`. -/
theorem csvRun_encodeRow (cells : List (List Char)) :
    ∀ (last : List Char) (curRow : List (List Char))
      (rows : List (List (List Char))),
      csvRun (encodeRowL (cells ++ [last])) false [] curRow rows =
        ⟨false, last, curRow ++ cells, rows⟩ := by
  induction cells with
  | nil =>
    intro last curRow rows
    have h := csvRun_encodeCell last [] [] curRow rows (Or.inl rfl)
    simpa [encodeRowL, csvRun] using h
  | cons c cs ih =>
    intro last curRow rows
    obtain ⟨x, xs, hx⟩ : ∃ x xs, cs ++ [last] = x :: xs := by
      cases h : cs ++ [last] with
      | nil => exact absurd h (by simp)
      | cons x xs => exact ⟨x, xs, rfl⟩
    have hrow : encodeRowL ((c :: cs) ++ [last]) =
        encodeCellL c ++ ',' :: encodeRowL (cs ++ [last]) := by
      rw [List.cons_append, hx]
      rfl
    rw [hrow,
      csvRun_encodeCell c (',' :: encodeRowL (cs ++ [last])) [] curRow rows
        (Or.inr ⟨_, rfl⟩)]
    have hcomma : csvRun (',' :: encodeRowL (cs ++ [last])) false
        ([] ++ c) curRow rows =
        csvRun (encodeRowL (cs ++ [last])) false [] (curRow ++ [c]) rows := by
      rw [csvRun.eq_def]
      simp
    rw [hcomma, ih]
    simp

/-- C3: parsing a properly quoted CSV row reproduces the original cell
values exactly — commas (and CR/LF) inside quotes are kept literally, and
each escaped `""` inside quotes yields one literal quote without closing
the quoted state; in particular `a,"b,c",d` parses to the single row
`["a", "b,c", "d"]` and `a,"b""c",d` to `["a", "b\"c", "d"]`. -/
theorem parseCsv_roundtrip :
    (∀ cells : List String, cells ≠ [] → parseCsv (encodeRow cells) = [cells]) ∧
    parseCsv ("a,\"b,c\",d") = [["a", "b,c", "d"]] ∧
    parseCsv ("a,\"b\"\"c\",d") = [["a", "b\"c", "d"]] := by
  refine ⟨?_, by decide, by decide⟩
  intro cells hne
  obtain ⟨cs, last, rfl⟩ : ∃ cs last, cells = cs ++ [last] := by
    induction cells using List.reverseRecOn with
    | nil => exact absurd rfl hne
    | append_singleton cs last _ => exact ⟨cs, last, rfl⟩
  have hdata : (encodeRow (cs ++ [last])).data =
      encodeRowL ((cs.map String.data) ++ [last.data]) := by
    simp [encodeRow]
  rw [parseCsv, parseCsvL, hdata, csvRun_encodeRow]
  simp [csvFinish]
  clear hdata hne
  induction cs with
  | nil => rfl
  | cons s ss ih => simpa using ih

/-- Witness for C3 at a row with an embedded comma, newline and quote. -/
theorem parseCsv_roundtrip_witness :
    (["a", "b,c\n", "d\"e"] : List String) ≠ [] ∧
    parseCsv (encodeRow ["a", "b,c\n", "d\"e"]) = [["a", "b,c\n", "d\"e"]] :=
  ⟨by decide, parseCsv_roundtrip.1 ["a", "b,c\n", "d\"e"] (by decide)⟩

/-! ## C4: empty input, trailing terminator, final flush -/

/-- Dropping the head keeps the last element of a list of two or more. -/
theorem getLast?_cons_of_ne_nil {a : Char} {l : List Char} (h : l ≠ []) :
    (a :: l).getLast? = l.getLast? := by
  cases l with
  | nil => exact absurd rfl h
  | cons b t => exact List.getLast?_cons_cons

/-- One-step simulation: as long as the head is not a `\r` that ends the
input, running the parser on `c :: l'` and on `(c :: l') ++ ['\n']` first
takes the same step, reaching the same intermediate state with the same
remaining input (up to the appended `'\n'`). -/
theorem csvRun_sim_step (c : Char) (l' : List Char) (inQ : Bool)
    (curVal : List Char) (curRow : List (List Char))
    (rows : List (List (List Char))) (hcr : c = '\r' → l' ≠ []) :
    ∃ (l'' : List Char) (inQ' : Bool) (cv' : List Char)
      (cr' : List (List Char)) (rw' : List (List (List Char))),
      l''.length ≤ l'.length ∧
      csvRun (c :: l') inQ curVal curRow rows = csvRun l'' inQ' cv' cr' rw' ∧
      csvRun ((c :: l') ++ ['\n']) inQ curVal curRow rows =
        csvRun (l'' ++ ['\n']) inQ' cv' cr' rw' ∧
      (l'' ≠ [] → l''.getLast? = (c :: l').getLast?) := by
  by_cases hq : c = '"'
  · subst hq
    cases inQ with
    | false =>
      refine ⟨l', true, curVal, curRow, rows, le_refl _, ?_, ?_, ?_⟩
      · exact csvRun_quote_open l' curVal curRow rows
      · rw [List.cons_append]
        exact csvRun_quote_open (l' ++ ['\n']) curVal curRow rows
      · intro h
        exact (getLast?_cons_of_ne_nil h).symm
    | true =>
      cases l' with
      | nil =>
        exact ⟨[], false, curVal, curRow, rows, by simp, by simp [csvRun],
          by simp [csvRun], by simp⟩
      | cons c2 l'' =>
        by_cases hc2 : c2 = '"'
        · subst hc2
          refine ⟨l'', true, curVal ++ ['"'], curRow, rows, by simp, ?_, ?_, ?_⟩
          · rw [csvRun.eq_def]
            simp
          · rw [List.cons_append, List.cons_append, csvRun.eq_def]
            simp
          · intro h
            exact ((getLast?_cons_of_ne_nil (by simp)).trans
              (getLast?_cons_of_ne_nil h)).symm
        · have hc2' : (c2 == '"') = false := beq_eq_false_iff_ne.mpr hc2
          refine ⟨c2 :: l'', false, curVal, curRow, rows, le_refl _, ?_, ?_, ?_⟩
          · rw [csvRun.eq_def]
            simp [hc2']
          · rw [List.cons_append, List.cons_append, csvRun.eq_def]
            simp [hc2']
          · intro _
            exact (getLast?_cons_of_ne_nil (by simp)).symm
  · have hq' : (c == '"') = false := beq_eq_false_iff_ne.mpr hq
    by_cases hcm : c = ','
    · subst hcm
      cases inQ with
      | false =>
        refine ⟨l', false, [], curRow ++ [curVal], rows, le_refl _, ?_, ?_, ?_⟩
        · rw [csvRun.eq_def]
          simp
        · rw [List.cons_append, csvRun.eq_def]
          simp
        · intro h
          exact (getLast?_cons_of_ne_nil h).symm
      | true =>
        refine ⟨l', true, curVal ++ [','], curRow, rows, le_refl _, ?_, ?_, ?_⟩
        · rw [csvRun.eq_def]
          simp
        · rw [List.cons_append, csvRun.eq_def]
          simp
        · intro h
          exact (getLast?_cons_of_ne_nil h).symm
    · have hcm' : (c == ',') = false := beq_eq_false_iff_ne.mpr hcm
      by_cases hn : c = '\n'
      · subst hn
        cases inQ with
        | false =>
          refine ⟨l', false, [], [], rows ++ [curRow ++ [curVal]], le_refl _,
            ?_, ?_, ?_⟩
          · cases l' <;> (rw [csvRun.eq_def]; simp)
          · cases l' <;> (rw [List.cons_append, csvRun.eq_def]; simp)
          · intro h
            exact (getLast?_cons_of_ne_nil h).symm
        | true =>
          refine ⟨l', true, curVal ++ ['\n'], curRow, rows, le_refl _, ?_, ?_, ?_⟩
          · rw [csvRun.eq_def]
            simp
          · rw [List.cons_append, csvRun.eq_def]
            simp
          · intro h
            exact (getLast?_cons_of_ne_nil h).symm
      · have hn' : (c == '\n') = false := beq_eq_false_iff_ne.mpr hn
        by_cases hr : c = '\r'
        · subst hr
          cases inQ with
          | false =>
            cases hl' : l' with
            | nil => exact absurd hl' (hcr rfl)
            | cons c2 l'' =>
              by_cases h2 : c2 = '\n'
              · subst h2
                refine ⟨l'', false, [], [], rows ++ [curRow ++ [curVal]],
                  by simp, ?_, ?_, ?_⟩
                · rw [csvRun.eq_def]
                  simp
                · rw [List.cons_append, List.cons_append, csvRun.eq_def]
                  simp
                · intro h
                  exact ((getLast?_cons_of_ne_nil (by simp)).trans
                    (getLast?_cons_of_ne_nil h)).symm
              · have h2' : (c2 == '\n') = false := beq_eq_false_iff_ne.mpr h2
                refine ⟨c2 :: l'', false, [], [], rows ++ [curRow ++ [curVal]],
                  le_refl _, ?_, ?_, ?_⟩
                · rw [csvRun.eq_def]
                  simp [h2']
                · rw [List.cons_append, List.cons_append, csvRun.eq_def]
                  simp [h2']
                · intro _
                  exact (getLast?_cons_of_ne_nil (by simp)).symm
          | true =>
            refine ⟨l', true, curVal ++ ['\r'], curRow, rows, le_refl _,
              ?_, ?_, ?_⟩
            · rw [csvRun.eq_def]
              simp
            · rw [List.cons_append, csvRun.eq_def]
              simp
            · intro h
              exact (getLast?_cons_of_ne_nil h).symm
        · have hr' : (c == '\r') = false := beq_eq_false_iff_ne.mpr hr
          refine ⟨l', inQ, curVal ++ [c], curRow, rows, le_refl _, ?_, ?_, ?_⟩
          · rw [csvRun.eq_def]
            simp [hq', hcm', hn', hr']
          · rw [List.cons_append, csvRun.eq_def]
            simp [hq', hcm', hn', hr']
          · intro h
            exact (getLast?_cons_of_ne_nil h).symm

/-- Appending a final `'\n'` to input whose parse ends outside quotes and
that does not end in a bare `'\r'` runs the parser to the same final
state, then takes one row-terminator step: the flushed rows become the
row list and an empty cell/row remains pending. -/
theorem csvRun_append_newline :
    ∀ (n : Nat) (l : List Char) (inQ : Bool) (curVal : List Char)
      (curRow : List (List Char)) (rows : List (List (List Char))),
      l.length ≤ n →
      (csvRun l inQ curVal curRow rows).inQuotes = false →
      l.getLast? ≠ some '\r' →
      csvRun (l ++ ['\n']) inQ curVal curRow rows =
        ⟨false, [], [], csvFinish (csvRun l inQ curVal curRow rows)⟩ := by
  intro n
  induction n with
  | zero =>
    intro l inQ curVal curRow rows hlen hq _
    have hnil : l = [] := List.length_eq_zero.mp (Nat.le_zero.mp hlen)
    subst hnil
    have hinq : inQ = false := by simpa [csvRun] using hq
    subst hinq
    rw [csvRun.eq_def]
    simp [csvRun, csvFinish]
  | succ n ih =>
    intro l inQ curVal curRow rows hlen hq hlast
    cases l with
    | nil =>
      have hinq : inQ = false := by simpa [csvRun] using hq
      subst hinq
      rw [csvRun.eq_def]
      simp [csvRun, csvFinish]
    | cons c l' =>
      have hcr : c = '\r' → l' ≠ [] := by
        intro hc hl
        subst hc
        subst hl
        exact hlast (by simp)
      obtain ⟨l'', inQ', cv', cr', rw', hle, h1, h2, h3⟩ :=
        csvRun_sim_step c l' inQ curVal curRow rows hcr
      rw [h2, h1]
      apply ih
      · have : l'.length ≤ n := by simpa using hlen
        omega
      · rw [← h1]
        exact hq
      · intro hbad
        rcases heq : l'' with _ | ⟨x, xs⟩
        · simp [heq] at hbad
        · have hne : l'' ≠ [] := by simp [heq]
          rw [h3 hne] at hbad
          exact hlast hbad

/-- Input containing no quote, comma, CR or LF is consumed entirely into
the current cell. -/
theorem csvRun_plain (l : List Char) :
    ∀ (inQ : Bool) (curVal : List Char) (curRow : List (List Char))
      (rows : List (List (List Char))),
      (∀ c ∈ l, c ≠ '"' ∧ c ≠ ',' ∧ c ≠ '\n' ∧ c ≠ '\r') →
      csvRun l inQ curVal curRow rows = ⟨inQ, curVal ++ l, curRow, rows⟩ := by
  induction l with
  | nil => intro inQ curVal curRow rows _; simp [csvRun]
  | cons c rest ih =>
    intro inQ curVal curRow rows h
    obtain ⟨h1, h2, h3, h4⟩ := h c (by simp)
    have step : csvRun (c :: rest) inQ curVal curRow rows =
        csvRun rest inQ (curVal ++ [c]) curRow rows := by
      rw [csvRun.eq_def]
      simp [beq_eq_false_iff_ne.mpr h1, beq_eq_false_iff_ne.mpr h2,
        beq_eq_false_iff_ne.mpr h3, beq_eq_false_iff_ne.mpr h4]
    rw [step, ih _ _ _ _ (fun c' hc' => h c' (by simp [hc']))]
    simp

/-- C4 (amended): `parseCsv` applied to the empty string produces one row
holding one empty cell (the unconditional final flush), not an empty row
sequence; appending a final line terminator to text whose parse ends
outside quotes (and not ending in a bare `\r`) adds exactly one extra
`[""]` row beyond the rows ended by terminators; and for text with no
terminator at all (no special characters), the last cell and row are
still flushed into the result. -/
theorem parseCsv_flush_spec :
    parseCsv ("") = [[""]] ∧
    (∀ s : String,
      (csvRun s.data false [] [] []).inQuotes = false →
      s.data.getLast? ≠ some '\r' →
      parseCsv (s ++ ("\n")) = parseCsv s ++ [[""]]) ∧
    (∀ l : List Char,
      (∀ c ∈ l, c ≠ '"' ∧ c ≠ ',' ∧ c ≠ '\n' ∧ c ≠ '\r') →
      parseCsv ⟨l⟩ = [[⟨l⟩]]) := by
  refine ⟨by decide, ?_, ?_⟩
  · intro s hinq hlast
    have hdata : (s ++ ("\n")).data = s.data ++ ['\n'] := rfl
    rw [parseCsv, parseCsv, parseCsvL, parseCsvL, hdata,
      csvRun_append_newline s.data.length s.data false [] [] []
        (le_refl _) hinq hlast]
    simp [csvFinish]
  · intro l h
    rw [parseCsv, parseCsvL]
    have : (⟨l⟩ : String).data = l := rfl
    rw [this, csvRun_plain l false [] [] [] h]
    simp [csvFinish]

/-- C4 counterexample: on the empty string the parser returns one row
with one empty cell, not an empty row sequence, and `"a\n"` (ending in a
terminator) parses to two rows — the extra `[""]` row beyond the one the
terminator ended. -/
theorem parseCsv_empty_counterexample :
    parseCsv ("") = [[""]] ∧ parseCsv ("") ≠ [] ∧
    parseCsv ("a\n") = [["a"], [""]] ∧ parseCsv ("a\n") ≠ [["a"]] := by
  refine ⟨by decide, by decide, by decide, by decide⟩

/-- Witness for C4 at `s = "a"` and at the plain character list `ab`. -/
theorem parseCsv_flush_spec_witness :
    parseCsv (("a" : String) ++ ("\n")) = parseCsv ("a") ++ [[""]] ∧
    parseCsv ("ab") = [["ab"]] :=
  ⟨parseCsv_flush_spec.2.1 ("a") (by decide) (by decide),
    parseCsv_flush_spec.2.2 ("ab".data) (by decide)⟩

/-! ## C5: blank-row filtering -/

/-- The parser always returns at least one row (the final flush). -/
theorem parseCsv_ne_nil (s : String) : parseCsv s ≠ [] := by
  simp [parseCsv, parseCsvL, csvFinish]

/-- C5: the records are exactly one per data line that has at least one
non-blank (after trimming) cell — all-blank lines such as `,,,` are
excluded, and nothing is dropped for any other reason (the record builder
is applied to every surviving line). -/
theorem sheetRows_blank_filter :
    (∀ text : String,
      (sheetRowsFromCsv text).length =
        ((parseCsv text).tail.filter
          (fun row => row.any (fun cell => jsTrim cell != ""))).length) ∧
    (∀ (text : String) (hd : List String) (tl : List (List String)),
      parseCsv text = hd :: tl →
      sheetRowsFromCsv text =
        (tl.filter (fun row => row.any (fun cell => jsTrim cell != ""))).map
          (buildRecord (hd.map (fun header => jsTrim (stripBOM header))))) ∧
    sheetRowsFromCsv ("A,B\n,,,\nx,y") = [[("A", "x"), ("B", "y")]] := by
  have hmain : ∀ (text : String) (hd : List String) (tl : List (List String)),
      parseCsv text = hd :: tl →
      sheetRowsFromCsv text =
        (tl.filter (fun row => row.any (fun cell => jsTrim cell != ""))).map
          (buildRecord (hd.map (fun header => jsTrim (stripBOM header)))) := by
    intro text hd tl hp
    simp [sheetRowsFromCsv, hp]
  refine ⟨?_, hmain, by decide⟩
  intro text
  rcases hp : parseCsv text with _ | ⟨hd, tl⟩
  · exact absurd hp (parseCsv_ne_nil text)
  · rw [hmain text hd tl hp]
    simp

/-- Witness for C5 on a three-line CSV whose middle line is all blank. -/
theorem sheetRows_blank_filter_witness :
    parseCsv ("A,B\n,,,\nx,y") = [["A", "B"], ["", "", "", ""], ["x", "y"]] ∧
    sheetRowsFromCsv ("A,B\n,,,\nx,y") =
      ([["", "", "", ""], ["x", "y"]].filter
        (fun row => row.any (fun cell => jsTrim cell != ""))).map
        (buildRecord (["A", "B"].map (fun header => jsTrim (stripBOM header)))) :=
  ⟨by decide,
    sheetRows_blank_filter.2.1 ("A,B\n,,,\nx,y") ["A", "B"]
      [["", "", "", ""], ["x", "y"]] (by decide)⟩

/-! ## C9: record field invariants -/

/-- Unfolding `sheetRowsFromCsv` once the parse result is split into
header row and data rows. -/
theorem sheetRowsFromCsv_cons (text : String) (hd : List String)
    (tl : List (List String)) (hp : parseCsv text = hd :: tl) :
    sheetRowsFromCsv text =
      (tl.filter (fun row => row.any (fun cell => jsTrim cell != ""))).map
        (buildRecord (hd.map (fun header => jsTrim (stripBOM header)))) := by
  simp [sheetRowsFromCsv, hp]

/-- Membership after a JavaScript-style keyed assignment. -/
theorem mem_jsSetKey (k v : String) (l : List (String × String))
    (kv : String × String) (h : kv ∈ jsSetKey k v l) : kv = (k, v) ∨ kv ∈ l := by
  induction l with
  | nil =>
    simp [jsSetKey] at h
    exact Or.inl h
  | cons p rest ih =>
    obtain ⟨k', v'⟩ := p
    by_cases hk : k' = k
    · simp only [jsSetKey, if_pos hk] at h
      rcases List.mem_cons.mp h with h | h
      · exact Or.inl h
      · exact Or.inr (List.mem_cons_of_mem _ h)
    · simp only [jsSetKey, if_neg hk] at h
      rcases List.mem_cons.mp h with h | h
      · exact Or.inr (List.mem_cons.mpr (Or.inl h))
      · rcases ih h with h' | h'
        · exact Or.inl h'
        · exact Or.inr (List.mem_cons_of_mem _ h')

/-- Every binding produced by the header loop either was already in the
accumulator or pairs a non-empty header from the list with a trimmed cell
of the row. -/
theorem mem_buildRecordFrom (row : List String) :
    ∀ (hs : List String) (i : Nat) (rec : List (String × String))
      (kv : String × String),
      kv ∈ buildRecordFrom row rec i hs →
      kv ∈ rec ∨
        (kv.1 ∈ hs ∧ kv.1 ≠ "" ∧ ∃ j, kv.2 = jsTrim (row.getD j (""))) := by
  intro hs
  induction hs with
  | nil =>
    intro i rec kv h
    exact Or.inl (by simpa [buildRecordFrom] using h)
  | cons header rest ih =>
    intro i rec kv h
    by_cases hh : header = ""
    · simp only [buildRecordFrom, if_pos hh] at h
      rcases ih _ _ _ h with h' | ⟨hmem, hne, j, hj⟩
      · exact Or.inl h'
      · exact Or.inr ⟨List.mem_cons_of_mem _ hmem, hne, j, hj⟩
    · simp only [buildRecordFrom, if_neg hh] at h
      rcases ih _ _ _ h with h' | ⟨hmem, hne, j, hj⟩
      · rcases mem_jsSetKey _ _ _ _ h' with h'' | h''
        · subst h''
          exact Or.inr ⟨List.mem_cons_self _ _, hh, i, rfl⟩
        · exact Or.inl h''
      · exact Or.inr ⟨List.mem_cons_of_mem _ hmem, hne, j, hj⟩

/-- Looking up the key just assigned. -/
theorem lookup_jsSetKey_self (k v : String) (l : List (String × String)) :
    List.lookup k (jsSetKey k v l) = some v := by
  induction l with
  | nil => simp [jsSetKey, List.lookup]
  | cons p rest ih =>
    obtain ⟨k', v'⟩ := p
    by_cases hk : k' = k
    · simp [jsSetKey, if_pos hk, List.lookup]
    · have : (k == k') = false := beq_eq_false_iff_ne.mpr (Ne.symm hk)
      simp [jsSetKey, if_neg hk, List.lookup, this, ih]

/-- Assigning a different key does not affect a lookup. -/
theorem lookup_jsSetKey_other (k k' v : String) (l : List (String × String))
    (h : k' ≠ k) : List.lookup k' (jsSetKey k v l) = List.lookup k' l := by
  induction l with
  | nil => simp [jsSetKey, List.lookup, beq_eq_false_iff_ne.mpr h]
  | cons p rest ih =>
    obtain ⟨k'', v''⟩ := p
    by_cases hk : k'' = k
    · subst hk
      simp [jsSetKey, List.lookup, beq_eq_false_iff_ne.mpr h]
    · simp [jsSetKey, if_neg hk, List.lookup, ih]

/-- Headers not containing the key leave its lookup unchanged. -/
theorem lookup_buildRecordFrom_notmem (row : List String) (k : String) :
    ∀ (hs : List String) (i : Nat) (rec : List (String × String)),
      k ∉ hs →
      List.lookup k (buildRecordFrom row rec i hs) = List.lookup k rec := by
  intro hs
  induction hs with
  | nil => intro i rec _; simp [buildRecordFrom]
  | cons header rest ih =>
    intro i rec hk
    have hk1 : k ≠ header := fun h => hk (by simp [h])
    have hk2 : k ∉ rest := fun h => hk (List.mem_cons_of_mem _ h)
    by_cases hh : header = ""
    · simp only [buildRecordFrom, if_pos hh]
      exact ih _ _ hk2
    · simp only [buildRecordFrom, if_neg hh]
      rw [ih _ _ hk2, lookup_jsSetKey_other _ _ _ _ hk1]

/-- The value recorded for a (last occurrence of a) non-empty header at
position `hs₁.length` is the trimmed cell at the same index. -/
theorem lookup_buildRecordFrom_last (row : List String) (k : String)
    (hk : k ≠ "") :
    ∀ (hs₁ hs₂ : List String) (i : Nat) (rec : List (String × String)),
      k ∉ hs₂ →
      List.lookup k (buildRecordFrom row rec i (hs₁ ++ k :: hs₂)) =
        some (jsTrim (row.getD (i + hs₁.length) (""))) := by
  intro hs₁
  induction hs₁ with
  | nil =>
    intro hs₂ i rec h2
    simp only [List.nil_append, buildRecordFrom, if_neg hk]
    rw [lookup_buildRecordFrom_notmem _ _ _ _ _ h2, lookup_jsSetKey_self]
    simp
  | cons header rest ih =>
    intro hs₂ i rec h2
    have harith : i + 1 + rest.length = i + (header :: rest).length := by
      simp only [List.length_cons]
      omega
    by_cases hh : header = ""
    · simp only [List.cons_append, buildRecordFrom, if_pos hh, List.append_eq]
      rw [ih _ _ _ h2, harith]
    · simp only [List.cons_append, buildRecordFrom, if_neg hh, List.append_eq]
      rw [ih _ _ _ h2, harith]

/-- C9: every field value in every record is a trimmed string under a
non-empty key (never `undefined`: a missing cell yields `""`); the keys
are the BOM-stripped, trimmed headers; a non-empty (last-occurrence)
header whose column is beyond the end of a short data row is bound to the
empty string; and an empty trimmed header yields no key at all. -/
theorem sheetRows_field_invariants :
    (∀ (text : String) (rec : List (String × String)) (kv : String × String),
      rec ∈ sheetRowsFromCsv text → kv ∈ rec →
      kv.1 ≠ "" ∧ jsTrim kv.2 = kv.2) ∧
    (∀ (text : String) (hd : List String) (tl : List (List String))
      (rec : List (String × String)) (kv : String × String),
      parseCsv text = hd :: tl →
      rec ∈ sheetRowsFromCsv text → kv ∈ rec →
      ∃ raw ∈ hd, kv.1 = jsTrim (stripBOM raw)) ∧
    (∀ (headers row hs₁ hs₂ : List String) (k : String),
      headers = hs₁ ++ k :: hs₂ → k ≠ "" → k ∉ hs₂ →
      row.length ≤ hs₁.length →
      List.lookup k (buildRecord headers row) = some ("")) := by
  have hmem : ∀ (text : String) (hd : List String) (tl : List (List String))
      (rec : List (String × String)) (kv : String × String),
      parseCsv text = hd :: tl →
      rec ∈ sheetRowsFromCsv text → kv ∈ rec →
      kv.1 ∈ hd.map (fun header => jsTrim (stripBOM header)) ∧ kv.1 ≠ "" ∧
        ∃ (j : Nat) (r : List String), kv.2 = jsTrim (r.getD j ("")) := by
    intro text hd tl rec kv hp hrec hkv
    rw [sheetRowsFromCsv_cons text hd tl hp] at hrec
    obtain ⟨row, _, rfl⟩ := List.mem_map.mp hrec
    rcases mem_buildRecordFrom row _ 0 [] kv hkv with h | ⟨hm, hne, j, hj⟩
    · simp at h
    · exact ⟨hm, hne, j, row, hj⟩
  refine ⟨?_, ?_, ?_⟩
  · intro text rec kv hrec hkv
    rcases hp : parseCsv text with _ | ⟨hd, tl⟩
    · exact absurd hp (parseCsv_ne_nil text)
    · obtain ⟨_, hne, j, r, hj⟩ := hmem text hd tl rec kv hp hrec hkv
      exact ⟨hne, by rw [hj, jsTrim_idem]⟩
  · intro text hd tl rec kv hp hrec hkv
    obtain ⟨hm, _, _⟩ := hmem text hd tl rec kv hp hrec hkv
    obtain ⟨raw, hraw, heq⟩ := List.mem_map.mp hm
    exact ⟨raw, hraw, heq.symm⟩
  · intro headers row hs₁ hs₂ k hsplit hk hk2 hshort
    rw [buildRecord, hsplit, lookup_buildRecordFrom_last row k hk hs₁ hs₂ 0 [] hk2]
    have hgd : row.getD (0 + hs₁.length) ("") = ("") :=
      List.getD_eq_default _ _ (by omega)
    rw [hgd]
    rfl

/-- Witness for C9: a sheet with one padded cell, and a two-column header
with a one-cell data row whose second column is missing. -/
theorem sheetRows_field_invariants_witness :
    (("H", "x") : String × String).1 ≠ "" ∧
    jsTrim (("H", "x") : String × String).2 = (("H", "x") : String × String).2 ∧
    List.lookup ("B") (buildRecord ["A", "B"] ["x"]) = some ("") :=
  ⟨(sheetRows_field_invariants.1 ("H\n x ") [("H", "x")] ("H", "x")
      (by decide) (by decide)).1,
    (sheetRows_field_invariants.1 ("H\n x ") [("H", "x")] ("H", "x")
      (by decide) (by decide)).2,
    sheetRows_field_invariants.2.2 ["A", "B"] ["x"] ["A"] [] ("B")
      rfl (by decide) (by decide) (by decide)⟩

/-! ## C1: `normalizeDate` -/

/-- C1 counterexample: an ISO `YYYY-MM-DD` string is not returned
unchanged — the unanchored regular expression matches the substring
`24-03-05` of `2024-03-05` (day `24`, month `03`, two-digit year `05`),
so the function rewrites it to `2005-03-24`. -/
theorem normalizeDate_iso_counterexample :
    normalizeDate ("2024-03-05") = "2005-03-24" ∧
    normalizeDate ("2024-03-05") ≠ "2024-03-05" := by
  refine ⟨by decide, by decide⟩

/-- C1 (amended): `normalizeDate` is total (never throws).  A day-first
`D/M/YY` string is rewritten to `YYYY-MM-DD` with zero padding and a `20`
prefix on two-digit years (`5/3/24` → `2024-03-05`); more generally,
whenever the unanchored pattern
`(\d{1,2})[\/\-](\d{1,2})[\/\-](\d{2,4})` finds a (leftmost) match in the
trimmed input, the output is rebuilt from that match's groups — so an ISO
string is itself rewritten from its matched tail (`2024-03-05` →
`2005-03-24`), not returned unchanged.  A string with no pattern match
that also fails general date parsing, such as `TBD`, is returned as the
original trimmed string unchanged. -/
theorem normalizeDate_spec :
    normalizeDate ("5/3/24") = "2024-03-05" ∧
    normalizeDate ("2024-03-05") = "2005-03-24" ∧
    normalizeDate ("TBD") = "TBD" ∧
    (∀ (s : String) (d m y : List Char),
      regexSearch (trimL s.data) = some (d, m, y) →
      normalizeDate s =
        ⟨yearFix y ++ '-' :: (padStart2 m ++ '-' :: padStart2 d)⟩) ∧
    (∀ s : String,
      regexSearch (trimL s.data) = none →
      jsDateParse (jsTrim s) = none →
      normalizeDate s = jsTrim s) := by
  refine ⟨by decide, by decide, by decide, ?_, ?_⟩
  · intro s d m y hre
    by_cases ht : trimL s.data = []
    · rw [ht] at hre
      simp [regexSearch] at hre
    · simp only [normalizeDate, if_neg ht, hre]
  · intro s hre hjs
    by_cases ht : trimL s.data = []
    · simp only [normalizeDate, if_pos ht, jsTrim, ht, if_true]
    · have hjs' : jsDateParse ⟨trimL s.data⟩ = none := hjs
      simp only [normalizeDate, if_neg ht, hre, hjs']
      rfl

/-- Witness for C1 at `"5/3/24"` (pattern match) and `"TBD"` (total
fallback). -/
theorem normalizeDate_spec_witness :
    normalizeDate ("5/3/24") =
      ⟨yearFix ['2', '4'] ++ '-' :: (padStart2 ['3'] ++ '-' :: padStart2 ['5'])⟩ ∧
    normalizeDate ("TBD") = jsTrim ("TBD") :=
  ⟨normalizeDate_spec.2.2.2.1 ("5/3/24") ['5'] ['3'] ['2', '4'] (by decide),
    normalizeDate_spec.2.2.2.2 ("TBD") (by decide) (by decide)⟩
